import Mathlib

/-!
# pal-paul/go-pg-sql: SQL script runner and dependency planner

A shallow embedding of

* `src/.vscode/main.go`   : the dependency planner (`main`, `getAbsPath`, `findById`, `Exec`);
* `src/cmd/main.go`       : the script runner loop of `main`;
* `src/pkg/database/db.go`: the network and address selection of `connect`;
* `src/pkg/utils/utils.go`: `FilePathWalkDir` and its walk callback.

Go strings are modelled by `String` (valid UTF-8 text); the separator `/` and the dot are
ASCII, so byte-wise and character-wise scanning agree on them.  The Go standard library
functions `filepath.Base`, `filepath.Ext`, `strings.HasPrefix`, `strconv.Itoa`,
`sort.SliceStable` and the callback protocol of `filepath.Walk` are modelled after their
documented Unix behaviour.
-/

namespace PgSql

/-! ## Standard library helpers -/

/-- Characters of `filepath.Base` for a non-empty path: trailing separators are stripped,
the last element is kept, and a path made only of separators gives a single separator. -/
def baseChars (path : List Char) : List Char :=
  let stripped := path.reverse.dropWhile (fun c => c == '/')
  let last := stripped.takeWhile (fun c => c != '/')
  if last.isEmpty then ['/'] else last.reverse

/-- Go `filepath.Base`: the last element of the path; `.` for the empty path. -/
def Base (path : String) : String :=
  if path.data.isEmpty then "." else String.mk (baseChars path.data)

/-- The backward scan of `filepath.Ext`: `rev` holds the characters not yet visited, last
character first, and `acc` the characters already passed, in path order. -/
def extLoop : List Char → List Char → List Char
  | [], _ => []
  | c :: rev, acc =>
    if c == '/' then []
    else if c == '.' then '.' :: acc
    else extLoop rev (c :: acc)

/-- Go `filepath.Ext`: the suffix beginning at the final dot of the final element of the
path, empty when that element has no dot. -/
def Ext (path : String) : String :=
  String.mk (extLoop path.data.reverse [])

/-- Go `strings.HasPrefix`. -/
def HasPrefix (s pre : String) : Bool :=
  pre.data.isPrefixOf s.data

/-- Go `strconv.Itoa`: the decimal text of a signed integer, with a minus sign in front of
a negative one. -/
def Itoa (i : Int) : String :=
  match i with
  | Int.ofNat n => String.mk (Nat.toDigits 10 n)
  | Int.negSucc n => String.mk ('-' :: Nat.toDigits 10 (n + 1))

/-! ## Planner data model (`src/.vscode/main.go`) -/

/-- One record of the relations manifest. -/
structure Relations where
  File : String
  Dependencies : List String
  deriving DecidableEq

/-- A working-list entry of the planner. `ParentId` is the empty string when no parent is
declared (the Go zero value). `Serial` is a Go `int` that counts the declared
dependencies from 2, far below the range of the type, so it is a natural number here. -/
structure sqlFileEntry where
  Id : String
  ParentId : String
  FilePath : String
  Serial : Nat

/-- A forest node. The Go value is a pointer to a struct holding a slice of pointers; every
node is allocated once and linked at one place, so the pointer graph is a tree. -/
inductive relationSqlFile where
  | mk (Id : String) (FilePath : String) (Children : List relationSqlFile)

/-- The type `relationSqlFiles`: a slice of nodes. -/
abbrev relationSqlFiles := List relationSqlFile

namespace relationSqlFile

/-- Field `Id`. -/
def Id : relationSqlFile → String
  | mk i _ _ => i

/-- Field `FilePath`. -/
def FilePath : relationSqlFile → String
  | mk _ f _ => f

/-- Field `Children`. -/
def Children : relationSqlFile → List relationSqlFile
  | mk _ _ c => c

end relationSqlFile

/-- A pointer to a node inside a tree: the child indices leading from the root to it. -/
abbrev Pos := List Nat

/-- Dereference a position. -/
def nodeAt : Pos → relationSqlFile → Option relationSqlFile
  | [], t => some t
  | i :: p, t =>
    match t.Children[i]? with
    | some c => nodeAt p c
    | none => none

/-- Replace the element at index `i` by its image under `f`. -/
def modifyAt {α : Type} (f : α → α) : Nat → List α → List α
  | _, [] => []
  | 0, a :: l => f a :: l
  | i + 1, a :: l => a :: modifyAt f i l

/-- The statement `parent.Children = append(parent.Children, res)` executed through the
pointer `p` into the tree. -/
def appendChildAt (res : relationSqlFile) : Pos → relationSqlFile → relationSqlFile
  | [], .mk id fp ch => .mk id fp (ch ++ [res])
  | i :: p, .mk id fp ch => .mk id fp (modifyAt (appendChildAt res p) i ch)

/-- The children of the node at `p`, each paired with its own position, starting at child
index `i`. -/
def enqueueChildren (p : Pos) : Nat → List relationSqlFile → List (Pos × relationSqlFile)
  | _, [] => []
  | i, c :: cs => (p ++ [i], c) :: enqueueChildren p (i + 1) cs

/-- The `for len(queue) > 0` loop of `findById`. Each iteration removes one node from the
queue for good, so the number of nodes bounds the number of iterations; `fuel` is that
bound. -/
def findByIdLoop (id : String) : Nat → List (Pos × relationSqlFile) → Option Pos
  | 0, _ => none
  | _ + 1, [] => none
  | fuel + 1, (p, nextUp) :: queue =>
    if nextUp.Id = id then some p
    else findByIdLoop id fuel (queue ++ enqueueChildren p 0 nextUp.Children)

mutual
/-- Number of nodes of a tree. -/
def nodeCount : relationSqlFile → Nat
  | .mk _ _ ch => 1 + forestCount ch
/-- Number of nodes of a forest. -/
def forestCount : List relationSqlFile → Nat
  | [] => 0
  | t :: rest => nodeCount t + forestCount rest
end

/-- Source `findById`: breadth-first search of the tree under `root` for the first node
whose `Id` is `id`; `none` is the Go `nil`. -/
def findById (root : relationSqlFile) (id : String) : Option Pos :=
  findByIdLoop id (nodeCount root) [([], root)]

/-- Source `getAbsPath`. -/
def getAbsPath (basename : String) : List String → String
  | [] => ""
  | file :: files => if Base file = basename then file else getAbsPath basename files

/-- The inner loop of `main` over `sqlFile.Dependencies`; returns the grown working list and
the next serial. The set `children` that the loop also fills is never read. -/
def depEntries (sqlFiles : List String) (file : String) :
    List String → List sqlFileEntry → Nat → List sqlFileEntry × Nat
  | [], category, serial => (category, serial)
  | dep :: deps, category, serial =>
    depEntries sqlFiles file deps
      (category ++ [{ Id := dep, ParentId := file, FilePath := getAbsPath dep sqlFiles,
                      Serial := serial }])
      (serial + 1)

/-- The outer loop of `main` over `config.Relations`. -/
def relationEntries (sqlFiles : List String) :
    List Relations → List sqlFileEntry → Nat → List sqlFileEntry × Nat
  | [], category, serial => (category, serial)
  | r :: rs, category, serial =>
    let step := depEntries sqlFiles r.File r.Dependencies category serial
    relationEntries sqlFiles rs step.1 step.2

/-- The loop of `main` over `sqlFiles`, appending the serial-1 entries. -/
def fileEntries : List String → List sqlFileEntry → List sqlFileEntry
  | [], category => category
  | sqlFile :: rest, category =>
    fileEntries rest
      (category ++ [{ Id := Base sqlFile, ParentId := "", FilePath := sqlFile, Serial := 1 }])

/-- Stable insertion of one entry in front of a list sorted by `Serial`: the entry moves
past exactly the elements that the less function of `main`
(`category[i].Serial < category[j].Serial`) puts before it. -/
def insertBySerial (e : sqlFileEntry) : List sqlFileEntry → List sqlFileEntry
  | [] => [e]
  | x :: xs => if x.Serial < e.Serial then x :: insertBySerial e xs else e :: x :: xs

/-- Go `sort.SliceStable` with the less function of `main`: a stable sort by `Serial`.
Entries are inserted from last to first, so equal serials keep their order. -/
def sortBySerial : List sqlFileEntry → List sqlFileEntry
  | [] => []
  | e :: es => insertBySerial e (sortBySerial es)

/-- The working list `category` of `main` before sorting. -/
def category (R : List Relations) (sqlFiles : List String) : List sqlFileEntry :=
  fileEntries sqlFiles (relationEntries sqlFiles R [] 2).1

/-- The loop `for _, root := range result` of `main`: the first root in which `findById`
succeeds gets `res` appended below the found node. `none` means `found` stayed false. -/
def attach (res : relationSqlFile) (parentId : String) :
    List relationSqlFile → Option (List relationSqlFile)
  | [] => none
  | root :: roots =>
    match findById root parentId with
    | some p => some (appendChildAt res p root :: roots)
    | none =>
      match attach res parentId roots with
      | some roots1 => some (root :: roots1)
      | none => none

/-- One iteration of the loop `for _, val := range category` of `main`. -/
def place (result : relationSqlFiles) (val : sqlFileEntry) : relationSqlFiles :=
  let res := relationSqlFile.mk val.Id val.FilePath []
  match attach res val.ParentId result with
  | some result1 => result1
  | none => result ++ [res]

/-- The forest-building loop of `main`. -/
def buildForest : List sqlFileEntry → relationSqlFiles → relationSqlFiles
  | [], result => result
  | val :: vals, result => buildForest vals (place result val)

/-- The forest `result` that `main` builds from the manifest and the discovered files. -/
def forest (R : List Relations) (sqlFiles : List String) : relationSqlFiles :=
  buildForest (sortBySerial (category R sqlFiles)) []

mutual
/-- One iteration of the loop of `Exec`: the children first, when there are any, then the
node's own id. -/
def execNode : relationSqlFile → List String
  | .mk id _ ch => (if 0 < ch.length then Exec ch else []) ++ [id]
/-- Source `Exec`: the lines printed, in order. -/
def Exec : List relationSqlFile → List String
  | [] => []
  | val :: rest => execNode val ++ Exec rest
end

/-- The lines printed by `Exec(result)` in `main`. -/
def planner (R : List Relations) (sqlFiles : List String) : List String :=
  Exec (forest R sqlFiles)

mutual
/-- All nodes of a tree, the node itself first. -/
def nodesOf : relationSqlFile → List relationSqlFile
  | .mk id fp ch => .mk id fp ch :: forestNodes ch
/-- All nodes of a forest, at every depth. -/
def forestNodes : List relationSqlFile → List relationSqlFile
  | [] => []
  | t :: rest => nodesOf t ++ forestNodes rest
end

/-- Ids of all nodes of a forest, at every depth. -/
def forestIds (f : List relationSqlFile) : List String :=
  (forestNodes f).map relationSqlFile.Id

/-- The declared pairs `(dep, file)` of a manifest, in the order in which the loops of
`main` visit them. -/
def declared : List Relations → List (String × String)
  | [] => []
  | r :: rs => r.Dependencies.map (fun dep => (dep, r.File)) ++ declared rs

/-- The entry that `main` appends for the path `sqlFile`. -/
def fileEntry (sqlFile : String) : sqlFileEntry :=
  { Id := Base sqlFile, ParentId := "", FilePath := sqlFile, Serial := 1 }

/-- The entries that `main` appends for a list of declared pairs, numbered from `serial`. -/
def pairEntries (sqlFiles : List String) : Nat → List (String × String) → List sqlFileEntry
  | _, [] => []
  | serial, (dep, file) :: rest =>
    { Id := dep, ParentId := file, FilePath := getAbsPath dep sqlFiles, Serial := serial }
      :: pairEntries sqlFiles (serial + 1) rest

/-- The node that `main` allocates for an entry. -/
def entryNode (val : sqlFileEntry) : relationSqlFile :=
  .mk val.Id val.FilePath []

/-- The pair `(Id, FilePath)` of a node. -/
def nodeKey (n : relationSqlFile) : String × String :=
  (n.Id, n.FilePath)

mutual
/-- Every node of a tree as `(id of the node it hangs under, Id, FilePath)`; `par` is the
id above the root of the tree, `none` for a root of the forest. -/
def treeLinks (par : Option String) : relationSqlFile → List (Option String × String × String)
  | .mk id fp ch => (par, id, fp) :: forestLinks (some id) ch
/-- Every node of a list of sibling trees hanging under `par`. -/
def forestLinks (par : Option String) :
    List relationSqlFile → List (Option String × String × String)
  | [] => []
  | t :: rest => treeLinks par t ++ forestLinks par rest
end

/-- Every declared pair names a file that is the id of a node when the pair is placed:
`known` holds the ids placed so far, a basename of a discovered file or a dependency listed
earlier in the manifest. -/
def parentsKnown : List String → List (String × String) → Bool
  | _, [] => true
  | known, (dep, file) :: rest => decide (file ∈ known) && parentsKnown (dep :: known) rest

/-- Every occurrence of `file` in the output has an occurrence of `dep` before it. -/
def precededBy (out : List String) (file dep : String) : Prop :=
  ∀ pre post, out = pre ++ file :: post → dep ∈ pre

/-! ## Script runner (`src/cmd/main.go`) -/

/-- What happens to one discovered file: the result of `os.ReadFile` (`none` for an error)
and whether `sqlDb.Exec` on its contents returns no error. -/
structure SqlFileRun where
  path : String
  read : Option String
  execOk : Bool

/-- The observable result of the runner loop: the SQL texts handed to `sqlDb.Exec`, in
order, and whether the process ended through `log.Fatalf` (exit status 1). -/
structure RunResult where
  submitted : List String
  fatal : Bool

/-- The loop `for _, sqlFile := range sqlFiles` of `main`; `submitted` collects the texts
handed to `Exec` so far. -/
def runLoop : List SqlFileRun → List String → RunResult
  | [], submitted => { submitted := submitted, fatal := false }
  | f :: rest, submitted =>
    match f.read with
    | none => { submitted := submitted, fatal := true }
    | some sql =>
      if f.execOk then runLoop rest (submitted ++ [sql])
      else { submitted := submitted ++ [sql], fatal := true }

/-- The runner loop started with nothing submitted. -/
def runner (files : List SqlFileRun) : RunResult :=
  runLoop files []

/-- A file on which the read or the Exec fails. -/
def SqlFileRun.fails (f : SqlFileRun) : Bool :=
  f.read.isNone || !f.execOk

/-! ## Database gateway (`src/pkg/database/db.go`) -/

/-- The struct `DBCredentials`. -/
structure DBCredentials where
  DBUser : String
  DBPassword : String
  DBHost : String
  DBPort : Int
  DB : String
  CloudSQLInstance : String

/-- Source `connect`, up to the construction of the connector: the pair
`(network, dbCredentials.DBHost)` that is passed to `pgdriver.WithNetwork` and
`pgdriver.WithAddr`. The rest of the function talks to the driver. -/
def connect (dbCredentials : DBCredentials) : String × String :=
  if HasPrefix dbCredentials.DBHost "/" then
    ("unix", dbCredentials.DBHost)
  else
    ("tcp", dbCredentials.DBHost ++ ":" ++ Itoa dbCredentials.DBPort)

/-! ## Filesystem walker (`src/pkg/utils/utils.go`) -/

/-- One invocation of the walk callback by `filepath.Walk`: the path, the `os.FileInfo`
(`none` for a nil interface, otherwise the value of `info.IsDir()`), and the error reported
for the entry. -/
structure WalkEvent where
  path : String
  info : Option Bool
  err : Option String

/-- How a call of `FilePathWalkDir` ends: a run-time panic, or a return of `files, err`. -/
inductive WalkOutcome where
  | panicked
  | returned (files : List String) (err : Option String)
  deriving DecidableEq

/-- The loop `for _, ext := range extensions` of the callback. -/
def appendMatching (path : String) : List String → List String → List String
  | [], files => files
  | ext :: exts, files =>
    appendMatching path exts (if Ext path = ext then files ++ [path] else files)

/-- The callback that `FilePathWalkDir` passes to `filepath.Walk`. It never looks at its
`err` argument and always returns nil; `info.IsDir()` on a nil `info` panics. The result is
`none` for a panic, otherwise the new `files` and the returned error. -/
def walkFn (extensions : List String) (files : List String) (ev : WalkEvent) :
    Option (List String × Option String) :=
  match ev.info with
  | none => none
  | some isDir =>
    if !isDir then
      let files1 := if extensions.length = 0 then files ++ [ev.path] else files
      some (appendMatching ev.path extensions files1, none)
    else
      some (files, none)

/-- The protocol of `filepath.Walk`: the callback is invoked for each event in order, and a
non-nil error returned by the callback stops the walk and is the result of `Walk`. -/
def Walk (extensions : List String) : List WalkEvent → List String → WalkOutcome
  | [], files => .returned files none
  | ev :: evs, files =>
    match walkFn extensions files ev with
    | none => .panicked
    | some (files1, some e) => .returned files1 (some e)
    | some (files1, none) => Walk extensions evs files1

/-- Source `FilePathWalkDir`, over the events the walk of `root` produces. -/
def FilePathWalkDir (events : List WalkEvent) (extensions : List String) : WalkOutcome :=
  Walk extensions events []

/-- The event for an entry whose `Lstat` succeeded. -/
def entryEvent (e : String × Bool) : WalkEvent :=
  { path := e.1, info := some e.2, err := none }

/-! ## Script runner -/

theorem runLoop_acc (files : List SqlFileRun) (acc : List String) :
    runLoop files acc =
      { submitted := acc ++ (runLoop files []).submitted, fatal := (runLoop files []).fatal } := by
  induction files generalizing acc with
  | nil => simp [runLoop]
  | cons f rest ih =>
    cases hr : f.read with
    | none => simp [runLoop, hr]
    | some sql =>
      cases he : f.execOk with
      | false => simp [runLoop, hr, he]
      | true =>
        simp only [runLoop, hr, he, if_true]
        rw [ih (acc ++ [sql]), ih ([] ++ [sql])]
        simp

theorem runner_cons_ok (f : SqlFileRun) (rest : List SqlFileRun) (sql : String)
    (hr : f.read = some sql) (he : f.execOk = true) :
    runner (f :: rest) =
      { submitted := sql :: (runner rest).submitted, fatal := (runner rest).fatal } := by
  unfold runner
  simp only [runLoop, hr, he, if_true]
  rw [runLoop_acc]
  simp

theorem fails_false_iff (f : SqlFileRun) :
    f.fails = false ↔ ∃ sql, f.read = some sql ∧ f.execOk = true := by
  cases hr : f.read <;> cases he : f.execOk <;> simp [SqlFileRun.fails, hr, he]

theorem runner_fatal_iff (files : List SqlFileRun) :
    (runner files).fatal = true ↔ ∃ f ∈ files, f.fails = true := by
  induction files with
  | nil => simp [runner, runLoop]
  | cons f rest ih =>
    cases hf : f.fails with
    | true =>
      have : (runner (f :: rest)).fatal = true := by
        cases hr : f.read with
        | none => simp [runner, runLoop, hr]
        | some sql =>
          cases he : f.execOk with
          | false => simp [runner, runLoop, hr, he]
          | true => simp [SqlFileRun.fails, hr, he] at hf
      simp [this, hf]
    | false =>
      obtain ⟨sql, hr, he⟩ := (fails_false_iff f).1 hf
      rw [runner_cons_ok f rest sql hr he]
      simp [ih, hf]

theorem runner_until_failure (pre : List SqlFileRun) (f : SqlFileRun) (post : List SqlFileRun)
    (hpre : ∀ g ∈ pre, g.fails = false) (hf : f.fails = true) :
    ∃ contents, contents.map some = pre.map (fun g => g.read) ∧
      (runner (pre ++ f :: post)).submitted = contents ++ f.read.toList := by
  induction pre with
  | nil =>
    refine ⟨[], rfl, ?_⟩
    cases hr : f.read with
    | none => simp [runner, runLoop, hr]
    | some sql =>
      cases he : f.execOk with
      | false => simp [runner, runLoop, hr, he]
      | true => simp [SqlFileRun.fails, hr, he] at hf
  | cons g pre ih =>
    obtain ⟨sql, hr, he⟩ := (fails_false_iff g).1 (hpre g (by simp))
    obtain ⟨contents, hc, hs⟩ := ih (fun x hx => hpre x (by simp [hx]))
    refine ⟨sql :: contents, by simp [hc, hr], ?_⟩
    rw [List.cons_append, runner_cons_ok g _ sql hr he]
    simp [hs]

theorem runner_all_ok (files : List SqlFileRun) (hok : ∀ g ∈ files, g.fails = false) :
    (runner files).submitted.map some = files.map (fun g => g.read) := by
  induction files with
  | nil => simp [runner, runLoop]
  | cons g rest ih =>
    obtain ⟨sql, hr, he⟩ := (fails_false_iff g).1 (hok g (by simp))
    rw [runner_cons_ok g _ sql hr he]
    simp [hr, ih (fun x hx => hok x (by simp [hx]))]

/-- C4: the runner loop hands to `Exec` the contents of the files in walker order up to and
including the first file on which the read or the Exec fails (a file whose read fails has
no contents, so nothing is handed over for it), nothing of any later file, and ends fatally
exactly when some read or Exec failed; with no failure every file's contents are handed
over once, in walker order. -/
theorem runner_stops_at_first_failure (files : List SqlFileRun) :
    ((runner files).fatal = true ↔ ∃ f ∈ files, f.fails = true) ∧
    (∀ pre f post, files = pre ++ f :: post → (∀ g ∈ pre, g.fails = false) →
      f.fails = true →
      ∃ contents, contents.map some = pre.map (fun g => g.read) ∧
        (runner files).submitted = contents ++ f.read.toList) ∧
    ((∀ g ∈ files, g.fails = false) →
      (runner files).submitted.map some = files.map (fun g => g.read)) := by
  refine ⟨runner_fatal_iff files, ?_, runner_all_ok files⟩
  intro pre f post hfiles hpre hf
  subst hfiles
  exact runner_until_failure pre f post hpre hf

/-- C4 at the scenario of the specification: `a.sql` is applied, `b.sql` is read but its
Exec fails, `c.sql` is never submitted, and the run is fatal. -/
theorem runner_stops_at_first_failure_witness :
    (runner [⟨"a.sql", some "A", true⟩, ⟨"b.sql", some "B", false⟩,
        ⟨"c.sql", some "C", true⟩]).fatal = true ∧
    (runner [⟨"a.sql", some "A", true⟩, ⟨"b.sql", some "B", false⟩,
        ⟨"c.sql", some "C", true⟩]).submitted = ["A", "B"] := by
  have h := runner_stops_at_first_failure
    [⟨"a.sql", some "A", true⟩, ⟨"b.sql", some "B", false⟩, ⟨"c.sql", some "C", true⟩]
  refine ⟨h.1.2 ⟨⟨"b.sql", some "B", false⟩, by simp, by decide⟩, ?_⟩
  obtain ⟨contents, hc, hs⟩ := h.2.1 [⟨"a.sql", some "A", true⟩] ⟨"b.sql", some "B", false⟩
    [⟨"c.sql", some "C", true⟩] rfl (by decide) (by decide)
  have hA : contents = ["A"] := by
    apply List.map_injective_iff.2 (Option.some_injective _)
    simpa using hc
  rw [hs, hA]
  rfl

/-! ## Database gateway -/

/-- C5: `connect` selects network `unix` and the host unchanged when the host starts with
`/`, whatever the port, and otherwise network `tcp` and the address host, colon, decimal
port. -/
theorem connect_network_address (c : DBCredentials) :
    (c.DBHost.data.head? = some '/' → connect c = ("unix", c.DBHost)) ∧
    (c.DBHost.data.head? ≠ some '/' →
      connect c = ("tcp", c.DBHost ++ ":" ++ Itoa c.DBPort)) ∧
    (∀ n : Nat, Itoa (Int.ofNat n) = Nat.repr n ∧
      Itoa (Int.negSucc n) = "-" ++ Nat.repr (n + 1)) := by
  have hp : HasPrefix c.DBHost "/" = true ↔ c.DBHost.data.head? = some '/' := by
    unfold HasPrefix
    cases h : c.DBHost.data with
    | nil => simp [List.isPrefixOf]
    | cons a l =>
      simp [List.isPrefixOf]
      exact eq_comm
  refine ⟨?_, ?_, ?_⟩
  · intro h
    simp [connect, hp.2 h]
  · intro h
    have : ¬ HasPrefix c.DBHost "/" = true := fun hh => h (hp.1 hh)
    simp [connect, this]
  · intro n
    constructor
    · simp [Itoa, Nat.repr, List.asString]
    · simp only [Itoa, Nat.repr, List.asString]
      rfl

/-- C5 at the Cloud SQL socket of the specification and at a TCP host. -/
theorem connect_network_address_witness :
    connect ⟨"u", "p", "/cloudsql/proj:reg:inst", 5432, "db", ""⟩
      = ("unix", "/cloudsql/proj:reg:inst") ∧
    connect ⟨"u", "p", "localhost", 5432, "db", ""⟩ = ("tcp", "localhost:5432") := by
  constructor
  · exact (connect_network_address ⟨"u", "p", "/cloudsql/proj:reg:inst", 5432, "db", ""⟩).1
      (by decide)
  · have h := (connect_network_address ⟨"u", "p", "localhost", 5432, "db", ""⟩).2.1
      (by decide)
    rw [h]
    decide

/-! ## Filesystem walker -/

theorem extLoop_skip (r rest acc : List Char) (h : ∀ c ∈ r, c ≠ '/' ∧ c ≠ '.') :
    extLoop (r ++ rest) acc = extLoop rest (r.reverse ++ acc) := by
  induction r generalizing acc with
  | nil => simp
  | cons c r ih =>
    have hc := h c (by simp)
    have hr : ∀ d ∈ r, d ≠ '/' ∧ d ≠ '.' := fun d hd => h d (by simp [hd])
    have step : extLoop (c :: r ++ rest) acc = extLoop (r ++ rest) (c :: acc) := by
      simp [extLoop, hc.1, hc.2]
    rw [step, ih (c :: acc) hr]
    simp

theorem Ext_of_dot (pre suf : List Char) (h : ∀ c ∈ suf, c ≠ '/' ∧ c ≠ '.') :
    Ext (String.mk (pre ++ '.' :: suf)) = String.mk ('.' :: suf) := by
  have hrev : ∀ c ∈ suf.reverse, c ≠ '/' ∧ c ≠ '.' := fun c hc => h c (by simpa using hc)
  have e : (pre ++ '.' :: suf).reverse = suf.reverse ++ ('.' :: pre.reverse) := by simp
  unfold Ext
  rw [e, extLoop_skip _ _ _ hrev]
  simp [extLoop]

theorem Ext_of_no_dot (pre last : List Char) (h : ∀ c ∈ last, c ≠ '/' ∧ c ≠ '.')
    (hpre : pre = [] ∨ ∃ dir, pre = dir ++ ['/']) :
    Ext (String.mk (pre ++ last)) = "" := by
  have hrev : ∀ c ∈ last.reverse, c ≠ '/' ∧ c ≠ '.' := fun c hc => h c (by simpa using hc)
  have e : (pre ++ last).reverse = last.reverse ++ pre.reverse := by simp
  unfold Ext
  rw [e, extLoop_skip _ _ _ hrev]
  rcases hpre with rfl | ⟨dir, rfl⟩
  · simp [extLoop]
  · simp [extLoop]

theorem appendMatching_eq (path : String) (exts files : List String) :
    appendMatching path exts files =
      files ++ (exts.filter (fun ext => decide (Ext path = ext))).map (fun _ => path) := by
  induction exts generalizing files with
  | nil => simp [appendMatching]
  | cons ext exts ih =>
    by_cases h : Ext path = ext
    · simp [appendMatching, ih, h]
    · simp [appendMatching, ih, h]

theorem mem_appendMatching (path : String) (exts files : List String) (p : String) :
    p ∈ appendMatching path exts files ↔ p ∈ files ∨ (p = path ∧ Ext path ∈ exts) := by
  rw [appendMatching_eq]
  simp only [List.mem_append, List.mem_map, List.mem_filter, decide_eq_true_eq]
  constructor
  · rintro (h | ⟨ext, ⟨hext, he⟩, rfl⟩)
    · exact Or.inl h
    · exact Or.inr ⟨rfl, he ▸ hext⟩
  · rintro (h | ⟨rfl, he⟩)
    · exact Or.inl h
    · exact Or.inr ⟨Ext p, ⟨he, rfl⟩, rfl⟩

theorem Walk_entries (extensions : List String) (entries : List (String × Bool))
    (files : List String) :
    ∃ more, Walk extensions (entries.map entryEvent) files = .returned (files ++ more) none ∧
      (∀ p ∈ more, (p, false) ∈ entries) ∧
      (extensions = [] → more = (entries.filter (fun e => !e.2)).map (fun e => e.1)) ∧
      (extensions ≠ [] → ∀ p, p ∈ more ↔ (p, false) ∈ entries ∧ Ext p ∈ extensions) := by
  induction entries generalizing files with
  | nil => exact ⟨[], by simp [Walk], by simp, by simp, by simp⟩
  | cons e entries ih =>
    obtain ⟨path, isDir⟩ := e
    cases isDir with
    | true =>
      obtain ⟨more, hw, h1, h2, h3⟩ := ih files
      refine ⟨more, by simpa [Walk, walkFn, entryEvent] using hw, ?_, ?_, ?_⟩
      · intro p hp
        simp [h1 p hp]
      · intro he
        simp [h2 he]
      · intro he p
        simp [h3 he p]
    | false =>
      by_cases hext : extensions = []
      · subst hext
        obtain ⟨more, hw, h1, h2, _⟩ := ih (files ++ [path])
        refine ⟨path :: more, ?_, ?_, ?_, ?_⟩
        · simpa [Walk, walkFn, entryEvent, appendMatching] using hw
        · intro p hp
          rcases List.mem_cons.1 hp with rfl | hp
          · simp
          · simp [h1 p hp]
        · intro _
          simp [h2 rfl]
        · intro he
          exact absurd rfl he
      · have hlen : ¬ extensions.length = 0 := by
          simpa [List.length_eq_zero] using hext
        obtain ⟨more, hw, h1, _, h3⟩ := ih (appendMatching path extensions files)
        refine ⟨(extensions.filter (fun ext => decide (Ext path = ext))).map (fun _ => path)
          ++ more, ?_, ?_, ?_, ?_⟩
        · simp only [List.map_cons, Walk, walkFn, entryEvent, Bool.not_false, if_true, hlen,
            if_false]
          rw [hw, appendMatching_eq]
          simp
        · intro p hp
          rcases List.mem_append.1 hp with hp | hp
          · obtain ⟨_, _, rfl⟩ := List.mem_map.1 hp
            simp
          · simp [h1 p hp]
        · intro he
          exact absurd he hext
        · intro _ p
          have hm := mem_appendMatching path extensions [] p
          rw [appendMatching_eq] at hm
          simp only [List.nil_append, List.not_mem_nil, false_or] at hm
          rw [List.mem_append, hm, h3 hext p]
          constructor
          · rintro (⟨rfl, he⟩ | ⟨hp, he⟩)
            · exact ⟨by simp, he⟩
            · exact ⟨by simp [hp], he⟩
          · rintro ⟨hp, he⟩
            rcases List.mem_cons.1 hp with h | h
            · have : p = path := by simpa using congrArg Prod.fst h
              exact Or.inl ⟨this, this ▸ he⟩
            · exact Or.inr ⟨h, he⟩

/-- C6: over walked entries `(path, is-directory)`, `FilePathWalkDir` returns without error
a list that contains no directory; with no extension it is the non-directory paths in
traversal order; with extensions a path is in it exactly when it is a non-directory entry
whose `filepath.Ext` equals one of the extensions. `filepath.Ext` is the suffix from the
last dot of the last path element, and empty when that element has no dot. -/
theorem FilePathWalkDir_filter (entries : List (String × Bool)) (extensions : List String) :
    (∃ files, FilePathWalkDir (entries.map entryEvent) extensions = .returned files none ∧
      (∀ p ∈ files, (p, false) ∈ entries) ∧
      (extensions = [] → files = (entries.filter (fun e => !e.2)).map (fun e => e.1)) ∧
      (extensions ≠ [] → ∀ p, p ∈ files ↔ (p, false) ∈ entries ∧ Ext p ∈ extensions)) ∧
    (∀ pre suf : List Char, (∀ c ∈ suf, c ≠ '/' ∧ c ≠ '.') →
      Ext (String.mk (pre ++ '.' :: suf)) = String.mk ('.' :: suf)) ∧
    (∀ pre last : List Char, (∀ c ∈ last, c ≠ '/' ∧ c ≠ '.') →
      (pre = [] ∨ ∃ dir, pre = dir ++ ['/']) → Ext (String.mk (pre ++ last)) = "") := by
  refine ⟨?_, Ext_of_dot, Ext_of_no_dot⟩
  obtain ⟨more, hw, h⟩ := Walk_entries extensions entries []
  exact ⟨more, by simpa [FilePathWalkDir] using hw, h⟩

/-- C6 on a small tree: a directory, two SQL files, an upper-case extension and a file
without extension, filtered by `.sql`. -/
theorem FilePathWalkDir_filter_witness :
    FilePathWalkDir ([("sql", true), ("sql/a.sql", false), ("sql/b.SQL", false),
        ("sql/d.x/c.sql", false), ("sql/d.x/readme", false)].map entryEvent) [".sql"]
      = .returned ["sql/a.sql", "sql/d.x/c.sql"] none ∧
    Ext "sql/d.x/readme" = "" ∧ Ext "sql/b.SQL" = ".SQL" := by
  have h := FilePathWalkDir_filter [("sql", true), ("sql/a.sql", false), ("sql/b.SQL", false),
        ("sql/d.x/c.sql", false), ("sql/d.x/readme", false)] [".sql"]
  refine ⟨by decide, ?_, ?_⟩
  · exact h.2.2 "sql/d.x/".data "readme".data (by decide) (Or.inr ⟨"sql/d.x".data, by decide⟩)
  · exact h.2.1 "sql/b".data "SQL".data (by decide)

theorem Walk_no_error (extensions : List String) (events : List WalkEvent)
    (files out : List String) (e : String) :
    Walk extensions events files ≠ .returned out (some e) := by
  induction events generalizing files with
  | nil => simp [Walk]
  | cons ev evs ih =>
    cases hi : ev.info with
    | none => simp [Walk, walkFn, hi]
    | some isDir =>
      cases isDir with
      | true => simpa [Walk, walkFn, hi] using ih files
      | false => simpa [Walk, walkFn, hi] using ih _

/-- C7, the code at the failing inputs: for a root that does not exist the callback is
invoked with a nil `info` and the call panics; for a directory that cannot be read the
error handed to the callback is dropped and the call returns success; and no run of
`FilePathWalkDir` ever returns a non-nil error. -/
theorem FilePathWalkDir_error_not_surfaced :
    FilePathWalkDir [⟨"missing", none, some "lstat missing: no such file or directory"⟩]
      [".sql"] = .panicked ∧
    FilePathWalkDir [⟨"locked", some true, some "open locked: permission denied"⟩]
      [".sql"] = .returned [] none ∧
    (∀ events extensions files e,
      FilePathWalkDir events extensions ≠ .returned files (some e)) := by
  refine ⟨rfl, rfl, ?_⟩
  intro events extensions files e
  exact Walk_no_error extensions events [] files e


/-! ## Planner: trees -/

theorem execNode_mk (id fp : String) (ch : List relationSqlFile) :
    execNode (.mk id fp ch) = Exec ch ++ [id] := by
  cases ch <;> simp [execNode, Exec]

theorem Exec_append (f g : List relationSqlFile) : Exec (f ++ g) = Exec f ++ Exec g := by
  induction f with
  | nil => simp [Exec]
  | cons t f ih => simp [Exec, ih]

theorem forestLinks_append (par : Option String) (f g : List relationSqlFile) :
    forestLinks par (f ++ g) = forestLinks par f ++ forestLinks par g := by
  induction f with
  | nil => simp [forestLinks]
  | cons t f ih => simp [forestLinks, ih]

theorem forestNodes_append (f g : List relationSqlFile) :
    forestNodes (f ++ g) = forestNodes f ++ forestNodes g := by
  induction f with
  | nil => simp [forestNodes]
  | cons t f ih => simp [forestNodes, ih]

theorem forestCount_append (f g : List relationSqlFile) :
    forestCount (f ++ g) = forestCount f + forestCount g := by
  induction f with
  | nil => simp [forestCount]
  | cons t f ih => simp [forestCount, ih, Nat.add_assoc]

mutual
theorem execNode_length : ∀ t : relationSqlFile, (execNode t).length = nodeCount t
  | .mk id fp ch => by
    rw [execNode_mk]
    simp [nodeCount, Exec_length ch, Nat.add_comm]
theorem Exec_length : ∀ f : List relationSqlFile, (Exec f).length = forestCount f
  | [] => by simp [Exec, forestCount]
  | t :: rest => by simp [Exec, forestCount, execNode_length t, Exec_length rest]
end

mutual
theorem nodesOf_links (par : Option String) :
    ∀ t : relationSqlFile, (treeLinks par t).map (fun l => l.2) = (nodesOf t).map nodeKey
  | .mk id fp ch => by
    simp [treeLinks, nodesOf, nodeKey, relationSqlFile.Id, relationSqlFile.FilePath,
      forestNodes_links (some id) ch]
theorem forestNodes_links (par : Option String) :
    ∀ f : List relationSqlFile,
      (forestLinks par f).map (fun l => l.2) = (forestNodes f).map nodeKey
  | [] => by simp [forestLinks, forestNodes]
  | t :: rest => by
    simp [forestLinks, forestNodes, nodesOf_links par t, forestNodes_links par rest]
end

theorem forestIds_links (par : Option String) (f : List relationSqlFile) :
    forestIds f = (forestLinks par f).map (fun l => l.2.1) := by
  have h := congrArg (List.map Prod.fst) (forestNodes_links par f)
  simp only [List.map_map] at h
  unfold forestIds
  rw [show (fun l : Option String × String × String => l.2.1) = Prod.fst ∘ (fun l => l.2) from rfl,
    h]
  rfl

mutual
theorem execNode_perm : ∀ t : relationSqlFile,
    (execNode t).Perm ((nodesOf t).map relationSqlFile.Id)
  | .mk id fp ch => by
    rw [execNode_mk]
    simp only [nodesOf, List.map_cons, relationSqlFile.Id]
    exact (List.perm_append_singleton _ _).trans (List.Perm.cons _ (Exec_perm ch))
theorem Exec_perm : ∀ f : List relationSqlFile, (Exec f).Perm (forestIds f)
  | [] => by simp [Exec, forestIds, forestNodes]
  | t :: rest => by
    simp only [Exec, forestIds, forestNodes, List.map_append]
    exact List.Perm.append (execNode_perm t) (Exec_perm rest)
end

mutual
theorem execNode_link_order : ∀ (t : relationSqlFile) (par : Option String)
    (a b fp : String), (some a, b, fp) ∈ treeLinks par t →
      (par = some a ∧ b ∈ execNode t) ∨ ∃ x y z, execNode t = x ++ b :: y ++ a :: z
  | .mk id fp0 ch, par, a, b, fp, h => by
    rw [execNode_mk]
    simp only [treeLinks, List.mem_cons] at h
    rcases h with h | h
    · left
      simp only [Prod.mk.injEq] at h
      exact ⟨h.1.symm, by simp [h.2.1]⟩
    · right
      rcases Exec_link_order ch (some id) a b fp h with ⟨hp, hb⟩ | ⟨x, y, z, hx⟩
      · obtain ⟨x, y, hxy⟩ := List.append_of_mem hb
        have : id = a := by simpa using hp
        exact ⟨x, y, [], by simp [hxy, this]⟩
      · exact ⟨x, y, z ++ [id], by simp [hx]⟩
theorem Exec_link_order : ∀ (f : List relationSqlFile) (par : Option String)
    (a b fp : String), (some a, b, fp) ∈ forestLinks par f →
      (par = some a ∧ b ∈ Exec f) ∨ ∃ x y z, Exec f = x ++ b :: y ++ a :: z
  | [], _, _, _, _, h => by simp [forestLinks] at h
  | t :: rest, par, a, b, fp, h => by
    simp only [forestLinks, List.mem_append] at h
    simp only [Exec]
    rcases h with h | h
    · rcases execNode_link_order t par a b fp h with ⟨hp, hb⟩ | ⟨x, y, z, hx⟩
      · exact Or.inl ⟨hp, by simp [hb]⟩
      · exact Or.inr ⟨x, y, z ++ Exec rest, by simp [hx]⟩
    · rcases Exec_link_order rest par a b fp h with ⟨hp, hb⟩ | ⟨x, y, z, hx⟩
      · exact Or.inl ⟨hp, by simp [hb]⟩
      · exact Or.inr ⟨execNode t ++ x, y, z, by simp [hx]⟩
end

/-! ## Planner: `findById` -/

theorem nodeCount_pos (t : relationSqlFile) : 0 < nodeCount t := by
  cases t
  simp [nodeCount]

theorem map_snd_enqueueChildren (p : Pos) (i : Nat) (cs : List relationSqlFile) :
    (enqueueChildren p i cs).map Prod.snd = cs := by
  induction cs generalizing i with
  | nil => simp [enqueueChildren]
  | cons c cs ih => simp [enqueueChildren, ih]

theorem mem_enqueueChildren (p : Pos) (i : Nat) (cs : List relationSqlFile)
    (x : Pos × relationSqlFile) (hx : x ∈ enqueueChildren p i cs) :
    ∃ j, x.1 = p ++ [i + j] ∧ cs[j]? = some x.2 := by
  induction cs generalizing i with
  | nil => simp [enqueueChildren] at hx
  | cons c cs ih =>
    simp only [enqueueChildren, List.mem_cons] at hx
    rcases hx with rfl | hx
    · exact ⟨0, by simp, by simp⟩
    · obtain ⟨j, h1, h2⟩ := ih (i + 1) hx
      exact ⟨j + 1, by simp [h1, Nat.add_assoc, Nat.add_comm 1 j], by simpa using h2⟩

theorem nodeAt_snoc (p : Pos) (k : Nat) (root n c : relationSqlFile)
    (hn : nodeAt p root = some n) (hc : n.Children[k]? = some c) :
    nodeAt (p ++ [k]) root = some c := by
  induction p generalizing root with
  | nil =>
    simp only [nodeAt, Option.some.injEq] at hn
    subst hn
    simp [nodeAt, hc]
  | cons i p ih =>
    simp only [List.cons_append, nodeAt] at hn ⊢
    cases hi : root.Children[i]? with
    | none => simp [hi] at hn
    | some d =>
      simp only [hi] at hn ⊢
      exact ih d hn

theorem findByIdLoop_some (id : String) (root : relationSqlFile) (fuel : Nat)
    (q : List (Pos × relationSqlFile)) (p : Pos)
    (hq : ∀ x ∈ q, nodeAt x.1 root = some x.2)
    (h : findByIdLoop id fuel q = some p) :
    ∃ n, nodeAt p root = some n ∧ n.Id = id := by
  induction fuel generalizing q with
  | zero => simp [findByIdLoop] at h
  | succ fuel ih =>
    cases q with
    | nil => simp [findByIdLoop] at h
    | cons x q =>
      obtain ⟨px, nx⟩ := x
      simp only [findByIdLoop] at h
      by_cases hid : nx.Id = id
      · simp only [hid, if_true, Option.some.injEq] at h
        subst h
        exact ⟨nx, hq (px, nx) (by simp), hid⟩
      · simp only [hid, if_false] at h
        apply ih _ _ h
        intro y hy
        rcases List.mem_append.1 hy with hy | hy
        · exact hq y (by simp [hy])
        · obtain ⟨j, h1, h2⟩ := mem_enqueueChildren px 0 nx.Children y hy
          rw [h1]
          exact nodeAt_snoc px (0 + j) root nx y.2 (hq (px, nx) (by simp)) (by simpa using h2)

theorem forestIds_cons (t : relationSqlFile) (f : List relationSqlFile) :
    forestIds (t :: f) = t.Id :: (forestIds t.Children ++ forestIds f) := by
  cases t
  simp [forestIds, forestNodes, nodesOf, relationSqlFile.Id, relationSqlFile.Children]

theorem forestIds_append (f g : List relationSqlFile) :
    forestIds (f ++ g) = forestIds f ++ forestIds g := by
  simp [forestIds, forestNodes_append]

theorem forestCount_cons (t : relationSqlFile) (f : List relationSqlFile) :
    forestCount (t :: f) = 1 + forestCount t.Children + forestCount f := by
  cases t
  simp [forestCount, nodeCount, relationSqlFile.Children]

theorem findByIdLoop_none (id : String) (fuel : Nat) (q : List (Pos × relationSqlFile))
    (hfuel : forestCount (q.map Prod.snd) ≤ fuel)
    (h : findByIdLoop id fuel q = none) :
    id ∉ forestIds (q.map Prod.snd) := by
  induction fuel generalizing q with
  | zero =>
    cases q with
    | nil => simp [forestIds, forestNodes]
    | cons x q =>
      have := nodeCount_pos x.2
      simp only [List.map_cons, forestCount] at hfuel
      omega
  | succ fuel ih =>
    cases q with
    | nil => simp [forestIds, forestNodes]
    | cons x q =>
      obtain ⟨px, nx⟩ := x
      simp only [findByIdLoop] at h
      by_cases hid : nx.Id = id
      · simp [hid] at h
      · simp only [hid, if_false] at h
        have hcount : forestCount ((q ++ enqueueChildren px 0 nx.Children).map Prod.snd)
            ≤ fuel := by
          rw [List.map_append, map_snd_enqueueChildren, forestCount_append]
          simp only [List.map_cons, forestCount_cons] at hfuel
          omega
        have hrec := ih _ hcount h
        rw [List.map_append, map_snd_enqueueChildren, forestIds_append] at hrec
        simp only [List.map_cons, forestIds_cons, List.mem_cons, List.mem_append]
        simp only [List.mem_append] at hrec
        intro hmem
        rcases hmem with hmem | hmem | hmem
        · exact hid hmem.symm
        · exact hrec (Or.inr hmem)
        · exact hrec (Or.inl hmem)

theorem findById_some (root : relationSqlFile) (id : String) (p : Pos)
    (h : findById root id = some p) : ∃ n, nodeAt p root = some n ∧ n.Id = id := by
  apply findByIdLoop_some id root _ _ p _ h
  intro x hx
  simp only [List.mem_singleton] at hx
  subst hx
  rfl

theorem findById_none (root : relationSqlFile) (id : String)
    (h : findById root id = none) : id ∉ forestIds [root] := by
  have := findByIdLoop_none id (nodeCount root) [([], root)] (by simp [forestCount]) h
  simpa using this

/-! ## Planner: appending below a found node -/

theorem appendChildAt_key (res : relationSqlFile) (p : Pos) (t : relationSqlFile) :
    nodeKey (appendChildAt res p t) = nodeKey t := by
  cases t
  cases p <;> simp [appendChildAt, nodeKey, relationSqlFile.Id, relationSqlFile.FilePath]

theorem forestLinks_modifyAt (par : Option String) (f : relationSqlFile → relationSqlFile)
    (extra : List (Option String × String × String)) (i : Nat) (ch : List relationSqlFile)
    (c : relationSqlFile) (hc : ch[i]? = some c)
    (hf : (treeLinks par (f c)).Perm (treeLinks par c ++ extra)) :
    (forestLinks par (modifyAt f i ch)).Perm (forestLinks par ch ++ extra) := by
  induction ch generalizing i with
  | nil => simp at hc
  | cons d ch ih =>
    cases i with
    | zero =>
      simp only [List.getElem?_cons_zero, Option.some.injEq] at hc
      subst hc
      simp only [modifyAt, forestLinks]
      refine (List.Perm.append_right _ hf).trans ?_
      rw [List.append_assoc, List.append_assoc]
      exact List.Perm.append_left _ List.perm_append_comm
    | succ i =>
      simp only [List.getElem?_cons_succ] at hc
      simp only [modifyAt, forestLinks, List.append_assoc]
      exact List.Perm.append_left _ (ih i hc)

theorem treeLinks_appendChildAt (res : relationSqlFile) (p : Pos) (t n : relationSqlFile)
    (par : Option String) (hn : nodeAt p t = some n) :
    (treeLinks par (appendChildAt res p t)).Perm
      (treeLinks par t ++ treeLinks (some n.Id) res) := by
  induction p generalizing t par with
  | nil =>
    simp only [nodeAt, Option.some.injEq] at hn
    subst hn
    cases t with
    | mk id fp ch =>
      simp [appendChildAt, treeLinks, forestLinks_append, forestLinks, relationSqlFile.Id]
  | cons i p ih =>
    cases t with
    | mk id fp ch =>
      simp only [nodeAt, relationSqlFile.Children] at hn
      cases hi : ch[i]? with
      | none => simp [hi] at hn
      | some c =>
        simp only [hi] at hn
        simp only [appendChildAt, treeLinks, List.cons_append]
        exact List.Perm.cons _ (forestLinks_modifyAt (some id) _ _ i ch c hi (ih c (some id) hn))

/-! ## Planner: placing one entry -/

theorem forestIds_subset_cons (t : relationSqlFile) (f : List relationSqlFile) (id : String) :
    id ∈ forestIds (t :: f) ↔ id ∈ forestIds [t] ∨ id ∈ forestIds f := by
  have h : t :: f = [t] ++ f := rfl
  rw [h, forestIds_append, List.mem_append]

theorem forestIds_of_mem (c : relationSqlFile) (f : List relationSqlFile) (hc : c ∈ f)
    (id : String) (hid : id ∈ forestIds [c]) : id ∈ forestIds f := by
  induction f with
  | nil => simp at hc
  | cons t f ih =>
    rw [forestIds_subset_cons]
    rcases List.mem_cons.1 hc with rfl | hc
    · exact Or.inl hid
    · exact Or.inr (ih hc)

theorem nodeAt_mem_ids (p : Pos) (t n : relationSqlFile) (hn : nodeAt p t = some n) :
    n.Id ∈ forestIds [t] := by
  induction p generalizing t with
  | nil =>
    simp only [nodeAt, Option.some.injEq] at hn
    subst hn
    simp [forestIds_cons]
  | cons i p ih =>
    simp only [nodeAt] at hn
    cases hi : t.Children[i]? with
    | none => simp [hi] at hn
    | some c =>
      simp only [hi] at hn
      have hmem : c ∈ t.Children := List.getElem?_mem hi
      have := forestIds_of_mem c t.Children hmem n.Id (ih c hn)
      simp [forestIds_cons, this]

theorem attach_some (res : relationSqlFile) (parentId : String)
    (roots roots1 : List relationSqlFile) (h : attach res parentId roots = some roots1) :
    (forestLinks none roots1).Perm (forestLinks none roots ++ treeLinks (some parentId) res) ∧
      roots1.map nodeKey = roots.map nodeKey ∧ parentId ∈ forestIds roots := by
  induction roots generalizing roots1 with
  | nil => simp [attach] at h
  | cons root roots ih =>
    simp only [attach] at h
    cases hf : findById root parentId with
    | some p =>
      simp only [hf, Option.some.injEq] at h
      subst h
      obtain ⟨n, hn, hid⟩ := findById_some root parentId p hf
      refine ⟨?_, ?_, ?_⟩
      · simp only [forestLinks]
        have hp := treeLinks_appendChildAt res p root n none hn
        rw [hid] at hp
        refine (List.Perm.append_right _ hp).trans ?_
        rw [List.append_assoc, List.append_assoc]
        exact List.Perm.append_left _ List.perm_append_comm
      · simp [appendChildAt_key]
      · rw [forestIds_subset_cons]
        exact Or.inl (hid ▸ nodeAt_mem_ids p root n hn)
    | none =>
      simp only [hf] at h
      cases ha : attach res parentId roots with
      | none => simp [ha] at h
      | some roots2 =>
        simp only [ha, Option.some.injEq] at h
        subst h
        obtain ⟨h1, h2, h3⟩ := ih roots2 ha
        refine ⟨?_, ?_, ?_⟩
        · simp only [forestLinks, List.append_assoc]
          exact List.Perm.append_left _ h1
        · simp [h2]
        · rw [forestIds_subset_cons]
          exact Or.inr h3

theorem attach_none (res : relationSqlFile) (parentId : String)
    (roots : List relationSqlFile) (h : attach res parentId roots = none) :
    parentId ∉ forestIds roots := by
  induction roots with
  | nil => simp [forestIds, forestNodes]
  | cons root roots ih =>
    simp only [attach] at h
    cases hf : findById root parentId with
    | some p => simp [hf] at h
    | none =>
      simp only [hf] at h
      cases ha : attach res parentId roots with
      | some roots2 => simp [ha] at h
      | none =>
        rw [forestIds_subset_cons]
        rintro (hm | hm)
        · exact findById_none root parentId hf hm
        · exact ih ha hm

theorem place_found (result : relationSqlFiles) (val : sqlFileEntry)
    (h : val.ParentId ∈ forestIds result) :
    (forestLinks none (place result val)).Perm
        (forestLinks none result ++ [(some val.ParentId, val.Id, val.FilePath)]) ∧
      (place result val).map nodeKey = result.map nodeKey := by
  cases ha : attach (.mk val.Id val.FilePath []) val.ParentId result with
  | none => exact absurd h (attach_none _ _ _ ha)
  | some roots1 =>
    obtain ⟨h1, h2, _⟩ := attach_some _ _ _ _ ha
    simp only [place, ha]
    exact ⟨by simpa [treeLinks, forestLinks] using h1, h2⟩

theorem place_not_found (result : relationSqlFiles) (val : sqlFileEntry)
    (h : val.ParentId ∉ forestIds result) :
    place result val = result ++ [.mk val.Id val.FilePath []] := by
  cases ha : attach (.mk val.Id val.FilePath []) val.ParentId result with
  | none => simp only [place, ha]
  | some roots1 => exact absurd (attach_some _ _ _ _ ha).2.2 h

theorem place_links (result : relationSqlFiles) (val : sqlFileEntry) :
    ∃ par, (forestLinks none (place result val)).Perm
      (forestLinks none result ++ [(par, val.Id, val.FilePath)]) := by
  by_cases h : val.ParentId ∈ forestIds result
  · exact ⟨_, (place_found result val h).1⟩
  · rw [place_not_found result val h]
    exact ⟨none, by simp [forestLinks_append, forestLinks, treeLinks]⟩

theorem place_ids (result : relationSqlFiles) (val : sqlFileEntry) :
    (forestIds (place result val)).Perm (forestIds result ++ [val.Id]) := by
  obtain ⟨par, h⟩ := place_links result val
  rw [forestIds_links none, forestIds_links none]
  simpa using h.map (fun l => l.2.1)

theorem place_keys (result : relationSqlFiles) (val : sqlFileEntry) :
    ((forestNodes (place result val)).map nodeKey).Perm
      ((forestNodes result).map nodeKey ++ [(val.Id, val.FilePath)]) := by
  obtain ⟨par, h⟩ := place_links result val
  rw [← forestNodes_links none, ← forestNodes_links none]
  simpa using h.map (fun l => l.2)

theorem place_links_mono (result : relationSqlFiles) (val : sqlFileEntry)
    (l : Option String × String × String) (hl : l ∈ forestLinks none result) :
    l ∈ forestLinks none (place result val) := by
  obtain ⟨par, h⟩ := place_links result val
  exact h.mem_iff.2 (by simp [hl])

/-! ## Planner: the forest-building loop -/

theorem buildForest_append (xs ys : List sqlFileEntry) (result : relationSqlFiles) :
    buildForest (xs ++ ys) result = buildForest ys (buildForest xs result) := by
  induction xs generalizing result with
  | nil => rfl
  | cons x xs ih => simp [buildForest, ih]

theorem buildForest_keys (vals : List sqlFileEntry) (result : relationSqlFiles) :
    ((forestNodes (buildForest vals result)).map nodeKey).Perm
      ((forestNodes result).map nodeKey ++ vals.map (fun v => (v.Id, v.FilePath))) := by
  induction vals generalizing result with
  | nil => simp [buildForest]
  | cons v vals ih =>
    simp only [buildForest, List.map_cons]
    refine (ih (place result v)).trans ?_
    refine (List.Perm.append_right _ (place_keys result v)).trans ?_
    simp

theorem buildForest_ids (vals : List sqlFileEntry) (result : relationSqlFiles) :
    (forestIds (buildForest vals result)).Perm
      (forestIds result ++ vals.map (fun v => v.Id)) := by
  have h := (buildForest_keys vals result).map Prod.fst
  simpa [forestIds, nodeKey, Function.comp_def] using h

theorem buildForest_links_mono (vals : List sqlFileEntry) (result : relationSqlFiles)
    (l : Option String × String × String) (hl : l ∈ forestLinks none result) :
    l ∈ forestLinks none (buildForest vals result) := by
  induction vals generalizing result with
  | nil => exact hl
  | cons v vals ih => exact ih _ (place_links_mono result v l hl)

/-- An entry whose parent id is already in the forest, or is the id of an earlier entry,
ends up directly below a node with that id. -/
theorem buildForest_link (pre : List sqlFileEntry) (e : sqlFileEntry)
    (post : List sqlFileEntry) (result : relationSqlFiles)
    (h : e.ParentId ∈ forestIds result ∨ e.ParentId ∈ pre.map (fun v => v.Id)) :
    (some e.ParentId, e.Id, e.FilePath) ∈
      forestLinks none (buildForest (pre ++ e :: post) result) := by
  rw [buildForest_append]
  simp only [buildForest]
  apply buildForest_links_mono
  have hin : e.ParentId ∈ forestIds (buildForest pre result) :=
    (buildForest_ids pre result).mem_iff.2 (by simpa using h)
  exact (place_found _ e hin).1.mem_iff.2 (by simp)

/-- When every entry finds its parent, the roots stay as they were. -/
theorem buildForest_roots (vals : List sqlFileEntry) (result : relationSqlFiles)
    (h : ∀ pre e post, vals = pre ++ e :: post →
      e.ParentId ∈ forestIds result ∨ e.ParentId ∈ pre.map (fun v => v.Id)) :
    (buildForest vals result).map nodeKey = result.map nodeKey := by
  induction vals generalizing result with
  | nil => rfl
  | cons v vals ih =>
    have hv : v.ParentId ∈ forestIds result := by
      simpa using h [] v vals rfl
    simp only [buildForest]
    rw [ih (place result v), (place_found result v hv).2]
    intro pre e post hvals
    have := h (v :: pre) e post (by simp [hvals])
    have hids := (place_ids result v).mem_iff (a := e.ParentId)
    simp only [List.mem_append, List.mem_singleton, List.map_cons, List.mem_cons] at hids this
    rw [hids]
    tauto

/-! ## Planner: the working list and its sort -/

theorem fileEntries_eq (fs : List String) (cat : List sqlFileEntry) :
    fileEntries fs cat = cat ++ fs.map fileEntry := by
  induction fs generalizing cat with
  | nil => simp [fileEntries]
  | cons f fs ih => simp [fileEntries, ih, fileEntry]

theorem pairEntries_append (F : List String) (s : Nat) (xs ys : List (String × String)) :
    pairEntries F s (xs ++ ys) = pairEntries F s xs ++ pairEntries F (s + xs.length) ys := by
  induction xs generalizing s with
  | nil => simp [pairEntries]
  | cons x xs ih =>
    obtain ⟨d, f⟩ := x
    simp [pairEntries, ih, Nat.add_assoc, Nat.add_comm 1]

theorem depEntries_eq (F : List String) (file : String) (deps : List String)
    (cat : List sqlFileEntry) (s : Nat) :
    depEntries F file deps cat s =
      (cat ++ pairEntries F s (deps.map (fun dep => (dep, file))), s + deps.length) := by
  induction deps generalizing cat s with
  | nil => simp [depEntries, pairEntries]
  | cons d deps ih =>
    simp [depEntries, ih, pairEntries, Nat.add_assoc, Nat.add_comm 1]

theorem relationEntries_eq (F : List String) (R : List Relations) (cat : List sqlFileEntry)
    (s : Nat) :
    relationEntries F R cat s =
      (cat ++ pairEntries F s (declared R), s + (declared R).length) := by
  induction R generalizing cat s with
  | nil => simp [relationEntries, declared, pairEntries]
  | cons r R ih =>
    simp [relationEntries, declared, depEntries_eq, ih, pairEntries_append, Nat.add_assoc]

theorem category_eq (R : List Relations) (F : List String) :
    category R F = pairEntries F 2 (declared R) ++ F.map fileEntry := by
  simp [category, fileEntries_eq, relationEntries_eq]

theorem pairEntries_serial (F : List String) (s : Nat) (ps : List (String × String))
    (x : sqlFileEntry) (hx : x ∈ pairEntries F s ps) : s ≤ x.Serial := by
  induction ps generalizing s with
  | nil => simp [pairEntries] at hx
  | cons p ps ih =>
    obtain ⟨d, f⟩ := p
    simp only [pairEntries, List.mem_cons] at hx
    rcases hx with rfl | hx
    · exact Nat.le_refl _
    · exact Nat.le_of_succ_le (ih (s + 1) hx)

theorem insertBySerial_first (e : sqlFileEntry) (xs : List sqlFileEntry)
    (h : ∀ x ∈ xs, e.Serial ≤ x.Serial) : insertBySerial e xs = e :: xs := by
  cases xs with
  | nil => rfl
  | cons x xs =>
    have := h x (by simp)
    simp [insertBySerial, Nat.not_lt.2 this]

theorem insertBySerial_skip (e : sqlFileEntry) (fs xs : List sqlFileEntry)
    (h : ∀ x ∈ fs, x.Serial < e.Serial) :
    insertBySerial e (fs ++ xs) = fs ++ insertBySerial e xs := by
  induction fs with
  | nil => rfl
  | cons f fs ih =>
    have hf := h f (by simp)
    simp [insertBySerial, hf, ih (fun x hx => h x (by simp [hx]))]

theorem sortBySerial_files (fs : List sqlFileEntry) (h : ∀ x ∈ fs, x.Serial = 1) :
    sortBySerial fs = fs := by
  induction fs with
  | nil => rfl
  | cons f fs ih =>
    simp only [sortBySerial]
    rw [ih (fun x hx => h x (by simp [hx]))]
    apply insertBySerial_first
    intro x hx
    rw [h f (by simp), h x (by simp [hx])]

theorem sortBySerial_pairs (F : List String) (s : Nat) (ps : List (String × String))
    (fs : List sqlFileEntry) (hs : 2 ≤ s) (h : ∀ x ∈ fs, x.Serial = 1) :
    sortBySerial (pairEntries F s ps ++ fs) = fs ++ pairEntries F s ps := by
  induction ps generalizing s with
  | nil => simpa [pairEntries] using sortBySerial_files fs h
  | cons p ps ih =>
    obtain ⟨d, f⟩ := p
    simp only [pairEntries]
    show insertBySerial ⟨d, f, getAbsPath d F, s⟩
      (sortBySerial (pairEntries F (s + 1) ps ++ fs)) = _
    rw [ih (s + 1) (by omega), insertBySerial_skip, insertBySerial_first]
    · intro x hx
      exact Nat.le_of_succ_le (pairEntries_serial F (s + 1) ps x hx)
    · intro x hx
      rw [h x hx]
      exact hs

/-- The sorted working list: the serial-1 entries in walker order, then the declared
pairs in manifest order. -/
theorem sorted_category (R : List Relations) (F : List String) :
    sortBySerial (category R F) = F.map fileEntry ++ pairEntries F 2 (declared R) := by
  rw [category_eq]
  apply sortBySerial_pairs F 2 _ _ (Nat.le_refl 2)
  intro x hx
  obtain ⟨p, _, rfl⟩ := List.mem_map.1 hx
  rfl

theorem Base_ne_empty (path : String) : Base path ≠ "" := by
  unfold Base
  split
  · decide
  · intro h
    have hd := congrArg String.data h
    simp only [baseChars] at hd
    split at hd
    · simp at hd
    · rename_i hne
      simp at hd
      simp [hd] at hne

theorem forestIds_leaves (gs : List String) :
    forestIds (gs.map (fun p => entryNode (fileEntry p))) = gs.map Base := by
  induction gs with
  | nil => simp [forestIds, forestNodes]
  | cons g gs ih =>
    rw [List.map_cons, forestIds_cons, ih]
    simp [entryNode, fileEntry, relationSqlFile.Id, relationSqlFile.Children, forestIds,
      forestNodes]

theorem buildForest_files (fs gs : List String) :
    buildForest (fs.map fileEntry) (gs.map (fun p => entryNode (fileEntry p))) =
      (gs ++ fs).map (fun p => entryNode (fileEntry p)) := by
  induction fs generalizing gs with
  | nil => simp [buildForest]
  | cons f fs ih =>
    have hnot : (fileEntry f).ParentId ∉
        forestIds (gs.map (fun p => entryNode (fileEntry p))) := by
      rw [forestIds_leaves]
      intro hm
      obtain ⟨p, _, hp⟩ := List.mem_map.1 hm
      exact Base_ne_empty p hp
    simp only [List.map_cons, buildForest]
    rw [place_not_found _ _ hnot]
    have := ih (gs ++ [f])
    simpa [entryNode] using this

/-- The forest of `main`: the discovered files become roots, in walker order, and then
the declared pairs are placed in manifest order. -/
theorem forest_eq (R : List Relations) (F : List String) :
    forest R F = buildForest (pairEntries F 2 (declared R))
      (F.map (fun p => entryNode (fileEntry p))) := by
  unfold forest
  rw [sorted_category, buildForest_append]
  have := buildForest_files F []
  simp only [List.map_nil, List.nil_append] at this
  rw [this]

theorem pairEntries_keys (F : List String) (s : Nat) (ps : List (String × String)) :
    (pairEntries F s ps).map (fun v => (v.Id, v.FilePath)) =
      ps.map (fun p => (p.1, getAbsPath p.1 F)) := by
  induction ps generalizing s with
  | nil => simp [pairEntries]
  | cons p ps ih =>
    obtain ⟨d, f⟩ := p
    simp [pairEntries, ih]

theorem pairEntries_ids (F : List String) (s : Nat) (ps : List (String × String)) :
    (pairEntries F s ps).map (fun v => v.Id) = ps.map Prod.fst := by
  have := congrArg (List.map Prod.fst) (pairEntries_keys F s ps)
  simpa [Function.comp_def] using this

theorem mem_declared (R : List Relations) (r : Relations) (dep : String) (hr : r ∈ R)
    (hd : dep ∈ r.Dependencies) : (dep, r.File) ∈ declared R := by
  induction R with
  | nil => simp at hr
  | cons r0 R ih =>
    simp only [declared, List.mem_append, List.mem_map]
    rcases List.mem_cons.1 hr with rfl | hr
    · exact Or.inl ⟨dep, hd, rfl⟩
    · exact Or.inr (ih hr)

theorem getAbsPath_eq_find (basename : String) (F : List String) :
    getAbsPath basename F = (F.find? (fun p => decide (Base p = basename))).getD "" := by
  induction F with
  | nil => rfl
  | cons f F ih =>
    by_cases h : Base f = basename
    · simp [getAbsPath, h]
    · simp [getAbsPath, h, ih]

/-! ## Planner: the claims -/

mutual
theorem nodesOf_link_child : ∀ (t : relationSqlFile) (par : Option String)
    (a b fp : String), (some a, b, fp) ∈ treeLinks par t →
      (par = some a ∧ nodeKey t = (b, fp)) ∨
        ∃ n ∈ nodesOf t, n.Id = a ∧ ∃ c ∈ n.Children, nodeKey c = (b, fp)
  | .mk id fp0 ch, par, a, b, fp, h => by
    simp only [treeLinks, List.mem_cons] at h
    rcases h with h | h
    · left
      simp only [Prod.mk.injEq] at h
      exact ⟨h.1.symm, by simp [nodeKey, relationSqlFile.Id, relationSqlFile.FilePath, h.2]⟩
    · right
      rcases forestNodes_link_child ch (some id) a b fp h with ⟨hp, c, hc, hk⟩ | ⟨n, hn, hr⟩
      · have : id = a := by simpa using hp
        exact ⟨.mk id fp0 ch, by simp [nodesOf], by simp [relationSqlFile.Id, this],
          c, by simpa [relationSqlFile.Children] using hc, hk⟩
      · exact ⟨n, by simp [nodesOf, hn], hr⟩
theorem forestNodes_link_child : ∀ (f : List relationSqlFile) (par : Option String)
    (a b fp : String), (some a, b, fp) ∈ forestLinks par f →
      (par = some a ∧ ∃ c ∈ f, nodeKey c = (b, fp)) ∨
        ∃ n ∈ forestNodes f, n.Id = a ∧ ∃ c ∈ n.Children, nodeKey c = (b, fp)
  | [], _, _, _, _, h => by simp [forestLinks] at h
  | t :: rest, par, a, b, fp, h => by
    simp only [forestLinks, List.mem_append] at h
    rcases h with h | h
    · rcases nodesOf_link_child t par a b fp h with ⟨hp, hk⟩ | ⟨n, hn, hr⟩
      · exact Or.inl ⟨hp, t, by simp, hk⟩
      · exact Or.inr ⟨n, by simp [forestNodes, hn], hr⟩
    · rcases forestNodes_link_child rest par a b fp h with ⟨hp, c, hc, hk⟩ | ⟨n, hn, hr⟩
      · exact Or.inl ⟨hp, c, by simp [hc], hk⟩
      · exact Or.inr ⟨n, by simp [forestNodes, hn], hr⟩
end

theorem forest_link (R : List Relations) (F : List String) (pre post : List (String × String))
    (dep file : String) (hdecl : declared R = pre ++ (dep, file) :: post)
    (hparent : file ∈ F.map Base ∨ file ∈ pre.map Prod.fst) :
    (some file, dep, getAbsPath dep F) ∈ forestLinks none (forest R F) := by
  rw [forest_eq, hdecl, pairEntries_append]
  simp only [pairEntries]
  refine buildForest_link (pairEntries F 2 pre)
    ⟨dep, file, getAbsPath dep F, 2 + pre.length⟩ _ _ ?_
  rw [forestIds_leaves, pairEntries_ids]
  exact hparent

theorem modifyAt_getElem (f : relationSqlFile → relationSqlFile) (i : Nat)
    (l : List relationSqlFile) : (modifyAt f i l)[i]? = l[i]?.map f := by
  induction l generalizing i with
  | nil => simp [modifyAt]
  | cons a l ih =>
    cases i with
    | zero => simp [modifyAt]
    | succ i => simpa [modifyAt] using ih i

/-- After the append, the found node is in the same place and has the new node as its last
child. -/
theorem nodeAt_appendChildAt (res : relationSqlFile) (p : Pos) (t n : relationSqlFile)
    (hn : nodeAt p t = some n) :
    nodeAt p (appendChildAt res p t) = some (.mk n.Id n.FilePath (n.Children ++ [res])) := by
  induction p generalizing t with
  | nil =>
    simp only [nodeAt, Option.some.injEq] at hn
    subst hn
    cases t
    simp [nodeAt, appendChildAt, relationSqlFile.Id, relationSqlFile.FilePath,
      relationSqlFile.Children]
  | cons i p ih =>
    cases t with
    | mk id fp ch =>
      simp only [nodeAt, relationSqlFile.Children] at hn
      cases hi : ch[i]? with
      | none => simp [hi] at hn
      | some c =>
        simp only [hi] at hn
        simp only [nodeAt, appendChildAt, relationSqlFile.Children, modifyAt_getElem, hi,
          Option.map_some']
        exact ih c hn

/-- The root that `attach` changes is the first one in which `findById` succeeds. -/
theorem attach_split (res : relationSqlFile) (parentId : String)
    (roots roots1 : List relationSqlFile) (h : attach res parentId roots = some roots1) :
    ∃ before root after p n, roots = before ++ root :: after ∧
      (∀ r ∈ before, findById r parentId = none) ∧ parentId ∉ forestIds before ∧
      findById root parentId = some p ∧ nodeAt p root = some n ∧ n.Id = parentId ∧
      roots1 = before ++ appendChildAt res p root :: after := by
  induction roots generalizing roots1 with
  | nil => simp [attach] at h
  | cons root roots ih =>
    simp only [attach] at h
    cases hf : findById root parentId with
    | some p =>
      simp only [hf, Option.some.injEq] at h
      obtain ⟨n, hn, hid⟩ := findById_some root parentId p hf
      exact ⟨[], root, roots, p, n, rfl, by simp, by simp [forestIds, forestNodes], hf, hn,
        hid, h.symm⟩
    | none =>
      simp only [hf] at h
      cases ha : attach res parentId roots with
      | none => simp [ha] at h
      | some roots2 =>
        simp only [ha, Option.some.injEq] at h
        obtain ⟨before, r0, after, p, n, h1, h2, h3, h4, h5, h6, h7⟩ := ih roots2 ha
        refine ⟨root :: before, r0, after, p, n, by simp [h1], ?_, ?_, h4, h5, h6,
          by simp [← h, h7]⟩
        · intro r hr
          rcases List.mem_cons.1 hr with rfl | hr
          · exact hf
          · exact h2 r hr
        · rw [forestIds_subset_cons]
          rintro (hm | hm)
          · exact findById_none root parentId hf hm
          · exact h3 hm

theorem place_found_split (result : relationSqlFiles) (val : sqlFileEntry)
    (h : val.ParentId ∈ forestIds result) :
    ∃ before root after p n, result = before ++ root :: after ∧
      (∀ r ∈ before, findById r val.ParentId = none) ∧ val.ParentId ∉ forestIds before ∧
      findById root val.ParentId = some p ∧ nodeAt p root = some n ∧ n.Id = val.ParentId ∧
      place result val
        = before ++ appendChildAt (.mk val.Id val.FilePath []) p root :: after := by
  cases ha : attach (.mk val.Id val.FilePath []) val.ParentId result with
  | none => exact absurd h (attach_none _ _ _ ha)
  | some roots1 =>
    obtain ⟨before, root, after, p, n, h1, h2, h3, h4, h5, h6, h7⟩ :=
      attach_split _ _ _ _ ha
    exact ⟨before, root, after, p, n, h1, h2, h3, h4, h5, h6, by simp only [place, ha, h7]⟩

theorem forest_child (R : List Relations) (F : List String)
    (pre post : List (String × String)) (dep file : String)
    (hdecl : declared R = pre ++ (dep, file) :: post)
    (hparent : file ∈ F.map Base ∨ file ∈ pre.map Prod.fst) :
    ∃ n ∈ forestNodes (forest R F), n.Id = file ∧
      ∃ c ∈ n.Children, c.Id = dep ∧ c.FilePath = getAbsPath dep F := by
  have hl := forest_link R F pre post dep file hdecl hparent
  rcases forestNodes_link_child (forest R F) none file dep _ hl with
    ⟨hp, _⟩ | ⟨n, hn, hid, c, hc, hk⟩
  · exact Option.noConfusion hp
  · simp only [nodeKey, Prod.mk.injEq] at hk
    exact ⟨n, hn, hid, c, hc, hk.1, hk.2⟩

/-- The sorted working list of `main` around one declared pair, and the forest of `main`
as the continuation of the loop from the placement of that pair. -/
theorem forest_at_pair (R : List Relations) (F : List String)
    (pre post : List (String × String)) (dep file : String)
    (hdecl : declared R = pre ++ (dep, file) :: post) :
    sortBySerial (category R F) =
        (F.map fileEntry ++ pairEntries F 2 pre) ++
          ⟨dep, file, getAbsPath dep F, 2 + pre.length⟩ ::
            pairEntries F (2 + pre.length + 1) post ∧
      forest R F = buildForest (pairEntries F (2 + pre.length + 1) post)
        (place (buildForest (F.map fileEntry ++ pairEntries F 2 pre) [])
          ⟨dep, file, getAbsPath dep F, 2 + pre.length⟩) ∧
      ∀ x, x ∈ forestIds (buildForest (F.map fileEntry ++ pairEntries F 2 pre) []) ↔
        (x ∈ F.map Base ∨ x ∈ pre.map Prod.fst) := by
  have hsorted : sortBySerial (category R F) =
      (F.map fileEntry ++ pairEntries F 2 pre) ++
        ⟨dep, file, getAbsPath dep F, 2 + pre.length⟩ ::
          pairEntries F (2 + pre.length + 1) post := by
    rw [sorted_category, hdecl, pairEntries_append]
    simp [pairEntries]
  refine ⟨hsorted, ?_, ?_⟩
  · unfold forest
    rw [hsorted, buildForest_append]
    rfl
  · intro x
    rw [(buildForest_ids _ []).mem_iff]
    simp [forestIds, forestNodes, pairEntries_ids, fileEntry, Function.comp_def]

theorem parentsKnown_split (known : List String) (ps pre post : List (String × String))
    (dep file : String) (h : parentsKnown known ps = true)
    (hps : ps = pre ++ (dep, file) :: post) :
    file ∈ known ∨ file ∈ pre.map Prod.fst := by
  induction ps generalizing known pre with
  | nil => simp at hps
  | cons p ps ih =>
    obtain ⟨d, f⟩ := p
    simp only [parentsKnown, Bool.and_eq_true, decide_eq_true_eq] at h
    cases pre with
    | nil =>
      simp only [List.nil_append, List.cons.injEq, Prod.mk.injEq] at hps
      exact Or.inl (hps.1.2 ▸ h.1)
    | cons q pre =>
      simp only [List.cons_append, List.cons.injEq] at hps
      have := ih (d :: known) pre h.2 hps.2
      simp only [List.mem_cons, List.map_cons] at this ⊢
      rw [← hps.1]
      tauto

/-- C1, as the code has it: for a declared pair whose file is the basename of a discovered
path, or a dependency listed earlier in the manifest, the forest has a node with the file's
id one of whose children has the dependency's id and its resolved path, and the output
prints the dependency's id before some occurrence of the file's id. -/
theorem planner_dep_before_file (R : List Relations) (F : List String)
    (pre post : List (String × String)) (dep file : String)
    (hdecl : declared R = pre ++ (dep, file) :: post)
    (hparent : file ∈ F.map Base ∨ file ∈ pre.map Prod.fst) :
    (∃ n ∈ forestNodes (forest R F), n.Id = file ∧
      ∃ c ∈ n.Children, c.Id = dep ∧ c.FilePath = getAbsPath dep F) ∧
    ∃ x y z, planner R F = x ++ dep :: y ++ file :: z := by
  refine ⟨forest_child R F pre post dep file hdecl hparent, ?_⟩
  have hl := forest_link R F pre post dep file hdecl hparent
  rcases Exec_link_order (forest R F) none file dep _ hl with ⟨hp, _⟩ | h
  · exact Option.noConfusion hp
  · exact h

/-- C1 at the chain of the specification: `users.sql` is listed before it is used as a
file; `addresses.sql` hangs under a node `users.sql` and is printed before an occurrence
of `users.sql`. -/
theorem planner_dep_before_file_witness :
    (∃ n ∈ forestNodes
        (forest [⟨"orders.sql", ["users.sql"]⟩, ⟨"users.sql", ["addresses.sql"]⟩]
          ["addresses.sql", "orders.sql", "users.sql"]),
      n.Id = "users.sql" ∧ ∃ c ∈ n.Children, c.Id = "addresses.sql" ∧
        c.FilePath = getAbsPath "addresses.sql" ["addresses.sql", "orders.sql", "users.sql"]) ∧
    ∃ x y z, planner [⟨"orders.sql", ["users.sql"]⟩, ⟨"users.sql", ["addresses.sql"]⟩]
      ["addresses.sql", "orders.sql", "users.sql"] = x ++ "addresses.sql" :: y ++ "users.sql" :: z :=
  planner_dep_before_file [⟨"orders.sql", ["users.sql"]⟩, ⟨"users.sql", ["addresses.sql"]⟩]
    ["addresses.sql", "orders.sql", "users.sql"] [("users.sql", "orders.sql")] []
    "addresses.sql" "users.sql" (by decide) (by decide)

/-- C1 as stated fails: with files `a.sql`, `c.sql` and the manifest `c.sql` needs `d.sql`,
`a.sql` needs `c.sql`, the output starts with `c.sql`, before any `d.sql`. -/
theorem planner_file_before_dep :
    planner [⟨"c.sql", ["d.sql"]⟩, ⟨"a.sql", ["c.sql"]⟩] ["a.sql", "c.sql"]
      = ["c.sql", "a.sql", "d.sql", "c.sql"] ∧
    ¬ (∀ r ∈ [(⟨"c.sql", ["d.sql"]⟩ : Relations), ⟨"a.sql", ["c.sql"]⟩],
        ∀ dep ∈ r.Dependencies,
          precededBy (planner [⟨"c.sql", ["d.sql"]⟩, ⟨"a.sql", ["c.sql"]⟩] ["a.sql", "c.sql"])
            r.File dep) := by
  have hout : planner [⟨"c.sql", ["d.sql"]⟩, ⟨"a.sql", ["c.sql"]⟩] ["a.sql", "c.sql"]
      = ["c.sql", "a.sql", "d.sql", "c.sql"] := by decide
  refine ⟨hout, fun h => ?_⟩
  have h1 := h ⟨"c.sql", ["d.sql"]⟩ (by simp) "d.sql" (by simp)
    [] ["a.sql", "d.sql", "c.sql"] (by rw [hout]; rfl)
  simp at h1

theorem forest_ids_perm (R : List Relations) (F : List String) :
    (forestIds (forest R F)).Perm (F.map Base ++ (declared R).map Prod.fst) := by
  rw [forest_eq]
  have h := buildForest_ids (pairEntries F 2 (declared R))
    (F.map (fun p => entryNode (fileEntry p)))
  rwa [forestIds_leaves, pairEntries_ids] at h

/-- C2, as the code has it: with pairwise distinct basenames, a basename of a discovered
file is the id of one node for the file itself plus one node for every time it is listed
as a dependency in the manifest. -/
theorem forest_id_count (R : List Relations) (F : List String) (b : String)
    (hnodup : (F.map Base).Nodup) (hb : b ∈ F.map Base) :
    (forestIds (forest R F)).count b = 1 + ((declared R).map Prod.fst).count b := by
  rw [(forest_ids_perm R F).count_eq, List.count_append, List.count_eq_one_of_mem hnodup hb]

/-- C2 at a file that is never listed as a dependency: exactly one node. -/
theorem forest_id_count_witness :
    (forestIds (forest [⟨"a.sql", ["b.sql"]⟩] ["sql/a.sql", "sql/b.sql"])).count "a.sql"
      = 1 + ((declared [⟨"a.sql", ["b.sql"]⟩]).map Prod.fst).count "a.sql" :=
  forest_id_count [⟨"a.sql", ["b.sql"]⟩] ["sql/a.sql", "sql/b.sql"] "a.sql"
    (by decide) (by decide)

/-- C2 as stated fails: with files `a.sql`, `b.sql` (distinct basenames) and the manifest
`a.sql` needs `b.sql`, two nodes of the forest have the id `b.sql`. -/
theorem forest_id_twice :
    (["sql/a.sql", "sql/b.sql"].map Base).Nodup ∧
    "b.sql" ∈ ["sql/a.sql", "sql/b.sql"].map Base ∧
    (forestIds (forest [⟨"a.sql", ["b.sql"]⟩] ["sql/a.sql", "sql/b.sql"])).count "b.sql"
      = 2 := by
  decide

/-- C3, as the code has it: on the scenario of the specification the output has five
lines, the three roots and the two attached dependencies. -/
theorem planner_scenario :
    planner [⟨"orders.sql", ["users.sql"]⟩, ⟨"users.sql", ["addresses.sql"]⟩]
      ["addresses.sql", "orders.sql", "users.sql"]
      = ["addresses.sql", "addresses.sql", "users.sql", "orders.sql", "users.sql"] := by
  decide

/-- C3 as stated fails: the output is not the three-line list. -/
theorem planner_scenario_not_three_lines :
    planner [⟨"orders.sql", ["users.sql"]⟩, ⟨"users.sql", ["addresses.sql"]⟩]
      ["addresses.sql", "orders.sql", "users.sql"]
      ≠ ["addresses.sql", "users.sql", "orders.sql"] := by
  decide

/-- C8: every dependency listed in the manifest has a node in the forest whose id is the
dependency and whose file path is `getAbsPath` of it, which is the first discovered path
with that basename, or the empty string when there is none. -/
theorem forest_has_dependency_node (R : List Relations) (F : List String) (r : Relations)
    (dep : String) (hr : r ∈ R) (hd : dep ∈ r.Dependencies) :
    (∃ n ∈ forestNodes (forest R F), n.Id = dep ∧ n.FilePath = getAbsPath dep F) ∧
    getAbsPath dep F = (F.find? (fun p => decide (Base p = dep))).getD "" := by
  refine ⟨?_, getAbsPath_eq_find dep F⟩
  have hk := buildForest_keys (pairEntries F 2 (declared R))
    (F.map (fun p => entryNode (fileEntry p)))
  rw [← forest_eq, pairEntries_keys] at hk
  have hm : (dep, getAbsPath dep F) ∈ (forestNodes (forest R F)).map nodeKey := by
    apply hk.mem_iff.2
    apply List.mem_append_right
    exact List.mem_map.2 ⟨(dep, r.File), mem_declared R r dep hr hd, rfl⟩
  obtain ⟨n, hn, hkey⟩ := List.mem_map.1 hm
  simp only [nodeKey, Prod.mk.injEq] at hkey
  exact ⟨n, hn, hkey.1, hkey.2⟩

/-- C8 at the missing dependency of the specification: the node exists and its file path
is empty. -/
theorem forest_has_dependency_node_witness :
    ((∃ n ∈ forestNodes (forest [⟨"foo.sql", ["missing.sql"]⟩] ["sql/foo.sql"]),
        n.Id = "missing.sql" ∧ n.FilePath = getAbsPath "missing.sql" ["sql/foo.sql"]) ∧
      getAbsPath "missing.sql" ["sql/foo.sql"] =
        (["sql/foo.sql"].find? (fun p => decide (Base p = "missing.sql"))).getD "") ∧
    getAbsPath "missing.sql" ["sql/foo.sql"] = "" :=
  ⟨forest_has_dependency_node [⟨"foo.sql", ["missing.sql"]⟩] ["sql/foo.sql"]
    ⟨"foo.sql", ["missing.sql"]⟩ "missing.sql" (by decide) (by decide), by decide⟩

theorem place_length (result : relationSqlFiles) (val : sqlFileEntry) :
    result.length ≤ (place result val).length := by
  by_cases h : val.ParentId ∈ forestIds result
  · have := congrArg List.length (place_found result val h).2
    simp only [List.length_map] at this
    omega
  · rw [place_not_found result val h]
    simp

theorem buildForest_length (vals : List sqlFileEntry) (result : relationSqlFiles) :
    result.length ≤ (buildForest vals result).length := by
  induction vals generalizing result with
  | nil => exact Nat.le_refl _
  | cons v vals ih => exact Nat.le_trans (place_length result v) (ih _)

theorem parentsKnown_congr (k1 k2 : List String) (ps : List (String × String))
    (h : ∀ x, x ∈ k1 ↔ x ∈ k2) : parentsKnown k1 ps = parentsKnown k2 ps := by
  induction ps generalizing k1 k2 with
  | nil => rfl
  | cons p ps ih =>
    obtain ⟨d, f⟩ := p
    simp only [parentsKnown]
    rw [ih (d :: k1) (d :: k2) (fun x => by simp [h x])]
    simp [h f]

/-- A declared pair that finds no node with its file's id adds a root. -/
theorem buildForest_grows (F : List String) (ps : List (String × String)) (s : Nat)
    (known : List String) (result : relationSqlFiles)
    (hk : ∀ x, x ∈ forestIds result ↔ x ∈ known)
    (h : parentsKnown known ps = false) :
    result.length < (buildForest (pairEntries F s ps) result).length := by
  induction ps generalizing s known result with
  | nil => simp [parentsKnown] at h
  | cons p ps ih =>
    obtain ⟨d, f⟩ := p
    simp only [pairEntries, buildForest]
    by_cases hf : f ∈ known
    · have hrest : parentsKnown (d :: known) ps = false := by
        simpa [parentsKnown, hf] using h
      refine Nat.lt_of_le_of_lt (place_length result _) (ih (s + 1) (d :: known) _ ?_ hrest)
      intro x
      rw [(place_ids result _).mem_iff]
      simp only [List.mem_append, List.mem_singleton, List.mem_cons, hk x]
      tauto
    · have hnot : (⟨d, f, getAbsPath d F, s⟩ : sqlFileEntry).ParentId ∉ forestIds result := by
        rw [hk]
        exact hf
      rw [place_not_found result _ hnot]
      refine Nat.lt_of_lt_of_le ?_ (buildForest_length _ _)
      simp

theorem forest_roots_of_known (R : List Relations) (F : List String)
    (h : parentsKnown (F.map Base) (declared R) = true) :
    (forest R F).map nodeKey = F.map (fun p => (Base p, p)) := by
  rw [forest_eq, buildForest_roots]
  · simp [nodeKey, entryNode, fileEntry, relationSqlFile.Id, relationSqlFile.FilePath]
  · intro pre e post hsplit
    rw [forestIds_leaves]
    have hpar : (pairEntries F 2 (declared R)).map (fun v => (v.Id, v.ParentId))
        = declared R := by
      generalize 2 = s
      induction declared R generalizing s with
      | nil => simp [pairEntries]
      | cons p ps ih =>
        obtain ⟨d, f⟩ := p
        simp [pairEntries, ih]
    rw [hsplit] at hpar
    simp only [List.map_append, List.map_cons] at hpar
    have := parentsKnown_split (F.map Base) (declared R) _ _ e.Id e.ParentId h hpar.symm
    simpa [Function.comp_def] using this

/-- C9, as the code has it. When `main` reaches the entry of a declared pair, the forest
holds the discovered files and the pairs declared before it. If some node has the declared
file's id, `findById` fails on every root before the first root that holds such a node and
succeeds on that root, and the entry is appended as the last child of the node found,
whose id is the file's; no root is added. If no node has that id, the entry becomes a new
last root. The roots of the final forest are exactly the discovered files in walker order
if and only if every declared file is the basename of a discovered path or a dependency
listed earlier in the manifest, and then every dependency hangs under a node with its
declared file's id. -/
theorem forest_roots (R : List Relations) (F : List String) :
    (∀ pre dep file post, declared R = pre ++ (dep, file) :: post →
      ∃ done todo,
        sortBySerial (category R F)
          = done ++ ⟨dep, file, getAbsPath dep F, 2 + pre.length⟩ :: todo ∧
        done.map (fun v => v.Id) = F.map Base ++ pre.map Prod.fst ∧
        forest R F = buildForest todo
          (place (buildForest done []) ⟨dep, file, getAbsPath dep F, 2 + pre.length⟩) ∧
        (file ∈ forestIds (buildForest done []) ↔
          (file ∈ F.map Base ∨ file ∈ pre.map Prod.fst)) ∧
        (file ∈ forestIds (buildForest done []) →
          ∃ before root after p n,
            buildForest done [] = before ++ root :: after ∧
            (∀ r ∈ before, findById r file = none) ∧
            file ∉ forestIds before ∧
            findById root file = some p ∧ nodeAt p root = some n ∧ n.Id = file ∧
            nodeAt p (appendChildAt (.mk dep (getAbsPath dep F) []) p root)
              = some (.mk n.Id n.FilePath (n.Children ++ [.mk dep (getAbsPath dep F) []])) ∧
            place (buildForest done []) ⟨dep, file, getAbsPath dep F, 2 + pre.length⟩
              = before ++ appendChildAt (.mk dep (getAbsPath dep F) []) p root :: after) ∧
        (file ∉ forestIds (buildForest done []) →
          place (buildForest done []) ⟨dep, file, getAbsPath dep F, 2 + pre.length⟩
            = buildForest done [] ++ [.mk dep (getAbsPath dep F) []])) ∧
    ((forest R F).map nodeKey = F.map (fun p => (Base p, p)) ↔
      parentsKnown (F.map Base) (declared R) = true) ∧
    (parentsKnown (F.map Base) (declared R) = true →
      ∀ dep file, (dep, file) ∈ declared R →
        ∃ n ∈ forestNodes (forest R F), n.Id = file ∧
          ∃ c ∈ n.Children, c.Id = dep ∧ c.FilePath = getAbsPath dep F) := by
  refine ⟨fun pre dep file post hdecl => ?_,
    ⟨fun hroots => ?_, forest_roots_of_known R F⟩, fun h dep file hmem => ?_⟩
  · obtain ⟨h1, h2, h3⟩ := forest_at_pair R F pre post dep file hdecl
    refine ⟨F.map fileEntry ++ pairEntries F 2 pre, pairEntries F (2 + pre.length + 1) post,
      h1, ?_, h2, h3 file, fun hin => ?_, fun hnot => ?_⟩
    · simp [pairEntries_ids, fileEntry, Function.comp_def]
    · obtain ⟨before, root, after, p, n, e1, e2, e3, e4, e5, e6, e7⟩ :=
        place_found_split (buildForest (F.map fileEntry ++ pairEntries F 2 pre) [])
          ⟨dep, file, getAbsPath dep F, 2 + pre.length⟩ hin
      exact ⟨before, root, after, p, n, e1, e2, e3, e4, e5, e6,
        nodeAt_appendChildAt _ p root n e5, e7⟩
    · exact place_not_found _ ⟨dep, file, getAbsPath dep F, 2 + pre.length⟩ hnot
  · by_contra hk
    have hfalse : parentsKnown (F.map Base) (declared R) = false := by
      simpa using hk
    have hlt := buildForest_grows F (declared R) 2 (F.map Base)
      (F.map (fun p => entryNode (fileEntry p)))
      (fun x => by rw [forestIds_leaves]) hfalse
    rw [← forest_eq] at hlt
    have hlen := congrArg List.length hroots
    simp only [List.length_map] at hlen hlt
    omega
  · obtain ⟨pre, post, hsplit⟩ := List.append_of_mem hmem
    exact forest_child R F pre post dep file hsplit
      (parentsKnown_split (F.map Base) (declared R) pre post dep file h hsplit)

/-- C9 at the chain of the specification: three roots, in walker order, and the entry
`addresses.sql` of `users.sql` is placed below a node found by `findById`. -/
theorem forest_roots_witness :
    (forest [⟨"orders.sql", ["users.sql"]⟩, ⟨"users.sql", ["addresses.sql"]⟩]
        ["sql/addresses.sql", "sql/orders.sql", "sql/users.sql"]).map nodeKey
      = [("addresses.sql", "sql/addresses.sql"), ("orders.sql", "sql/orders.sql"),
          ("users.sql", "sql/users.sql")] ∧
    ∃ done todo,
      sortBySerial (category [⟨"orders.sql", ["users.sql"]⟩, ⟨"users.sql", ["addresses.sql"]⟩]
          ["sql/addresses.sql", "sql/orders.sql", "sql/users.sql"])
        = done ++ ⟨"addresses.sql", "users.sql", "sql/addresses.sql", 3⟩ :: todo ∧
      ∃ before root after p n,
        buildForest done [] = before ++ root :: after ∧
        (∀ r ∈ before, findById r "users.sql" = none) ∧
        findById root "users.sql" = some p ∧ nodeAt p root = some n ∧
        n.Id = "users.sql" := by
  have h := forest_roots [⟨"orders.sql", ["users.sql"]⟩, ⟨"users.sql", ["addresses.sql"]⟩]
    ["sql/addresses.sql", "sql/orders.sql", "sql/users.sql"]
  refine ⟨(h.2.1.2 (by decide)).trans (by decide), ?_⟩
  obtain ⟨done, todo, h1, _, _, h4, h5, _⟩ :=
    h.1 [("users.sql", "orders.sql")] "addresses.sql" "users.sql" [] (by decide)
  obtain ⟨before, root, after, p, n, e1, e2, _, e4, e5, e6, _⟩ := h5 (h4.2 (by decide))
  exact ⟨done, todo, h1, before, root, after, p, n, e1, e2, e4, e5, e6⟩

/-- C9 as stated fails: when the declared file `foo.sql` is not among the discovered
files, its dependency finds no parent and becomes a second root. -/
theorem forest_dependency_becomes_root :
    (forest [⟨"foo.sql", ["missing.sql"]⟩] ["sql/bar.sql"]).map nodeKey
      = [("bar.sql", "sql/bar.sql"), ("missing.sql", "")] ∧
    (forest [⟨"foo.sql", ["missing.sql"]⟩] ["sql/bar.sql"]).map nodeKey
      ≠ ["sql/bar.sql"].map (fun p => (Base p, p)) := by
  decide

/-- C10: `Exec` prints one line per node, the lines are the ids of the nodes of the
forest, the roots are handled in order, and the line of a node comes right after all the
lines of the trees below it. -/
theorem Exec_postorder (f : List relationSqlFile) :
    (Exec f).length = forestCount f ∧
    (Exec f).Perm (forestIds f) ∧
    (∀ g, Exec (f ++ g) = Exec f ++ Exec g) ∧
    (∀ id fp, Exec [.mk id fp f] = Exec f ++ [id]) := by
  refine ⟨Exec_length f, Exec_perm f, Exec_append f, ?_⟩
  intro id fp
  simp [Exec, execNode_mk]

end PgSql
